import Mathlib

/-!
Verification of the regular-language library (regular expressions, finite
automata, state elimination, regular grammars) against its specification.

The development shallowly embeds the Python sources:
  * `src/regular/regular_expression.py` — the regex algebra, its smart
    constructors and its string rendering;
  * `src/regular/fsa_base.py`, `src/regular/automata/dfa.py`,
    `src/regular/automata/nfa.py` — the automaton model and simulation;
  * `src/regular/regex_convertible.py` — state elimination (`to_regex`);
  * `src/regular/regular_grammar.py` — grammars and `to_finite_automaton`.

Python dictionaries are embedded as association lists (`List (key × value)`),
Python sets as lists queried only through membership, so that every
definition is executable.  Python `ValueError`s are embedded as the error
values of an `Except`.  Python `==` on expression nodes is reference
equality on the composite nodes and structural equality on the atoms; it is
embedded as structural equality, which agrees with the source on every
comparison the verified claims exercise (atoms, and same-object arguments).
-/

namespace RegularLib

/-- Expression tree from `regular_expression.py`: `Symbol`, `EmptyString`,
`EmptySet`, `RegexUnion`, `RegexConcat`, `RegexKleeneStar`.  Python symbols
are strings, so `symbol` carries a `String`. -/
inductive Regex where
  | symbol : String → Regex
  | emptyString : Regex
  | emptySet : Regex
  | union : Regex → Regex → Regex
  | concat : Regex → Regex → Regex
  | kleeneStar : Regex → Regex
deriving DecidableEq, Repr

/-- `_strip_parantheses` from `regular_expression.py`: remove the outer
parentheses when the string starts with `(`, ends with `)` and contains
`|`. -/
def strip_parantheses (s : String) : String :=
  if s.data.head? = some '(' ∧ s.data.getLast? = some ')' ∧ s.data.contains '|' then
    ⟨(s.data.drop 1).dropLast⟩
  else s

/-- `_add_parantheses` from `regular_expression.py`.  Its guard is
`isinstance(expr_str, (RegexUnion, RegexConcat))`, but `expr_str` is a
string, never an expression node, so the guard is always false and the
function returns its argument unchanged. -/
def add_parantheses (s : String) : String := s

/-- The `__str__` methods of all six node classes, tupled: `render e`
returns `(str(e), str(RegexKleeneStar(e)))`.  The second component embeds
`RegexKleeneStar.__str__` applied to a star node with inner expression `e`;
tupling makes the recursion structural (that method recurses into
`str(RegexKleeneStar(side))` when one side of a union is `EmptyString`). -/
def render : Regex → String × String
  | .symbol ch => (ch, add_parantheses ch ++ "*")
  | .emptyString => ("ε", "ε")
  | .emptySet => ("∅", "ε")
  | .union l r =>
      let ls := (render l).1
      let rs := (render r).1
      let s :=
        if l = .emptySet then rs
        else if r = .emptySet then ls
        else if l = r then ls
        else "(" ++ strip_parantheses ls ++ "|" ++ strip_parantheses rs ++ ")"
      let star :=
        if l = .emptyString then (render r).2
        else if r = .emptyString then (render l).2
        else add_parantheses s ++ "*"
      (s, star)
  | .concat l r =>
      let s :=
        if l = .emptyString then (render r).1
        else if r = .emptyString then (render l).1
        else if l = .emptySet ∨ r = .emptySet then "∅"
        else add_parantheses (render l).1 ++ add_parantheses (render r).1
      (s, add_parantheses s ++ "*")
  | .kleeneStar e =>
      let s := (render e).2
      (s, add_parantheses s ++ "*")

/-- `str(e)` for an expression node. -/
def reStr (e : Regex) : String := (render e).1

/-- `make_union` from `regular_expression.py`. -/
def make_union (left right : Regex) : Regex :=
  if left = .emptySet then right
  else if right = .emptySet then left
  else if left = right then left
  else .union left right

/-- `make_concat` from `regular_expression.py`. -/
def make_concat (left right : Regex) : Regex :=
  if left = .emptyString then right
  else if right = .emptyString then left
  else if left = .emptySet ∨ right = .emptySet then .emptySet
  else .concat left right

/-- `make_kleene_star` from `regular_expression.py`.  The only
simplification performed at construction time is `ε* = ∅* = ε`. -/
def make_kleene_star (regex : Regex) : Regex :=
  if regex = .emptyString ∨ regex = .emptySet then .emptyString
  else .kleeneStar regex

/-- Claim C7: for every expression `X` (structural equality),
`union(EmptySet, X) == X`, `union(X, EmptySet) == X`, `union(X, X) == X`,
`concat(EmptyString, X) == X`, `concat(X, EmptyString) == X`, and
`concat(EmptySet, X) == concat(X, EmptySet) == EmptySet`. -/
theorem C7_smart_constructor_identities (X : Regex) :
    make_union .emptySet X = X ∧
    make_union X .emptySet = X ∧
    make_union X X = X ∧
    make_concat .emptyString X = X ∧
    make_concat X .emptyString = X ∧
    make_concat .emptySet X = .emptySet ∧
    make_concat X .emptySet = .emptySet := by
  refine ⟨?_, ?_, ?_, ?_, ?_, ?_, ?_⟩ <;>
    simp only [make_union, make_concat] <;> split_ifs <;> simp_all

/-- Claim C5 (code bug): rendering of a Kleene star over a concatenation.
The code's `_add_parantheses` helper type-tests its string argument
against the node classes, so it never parenthesizes; consequently
`kleeneStar(concat(a, b))` renders as `"ab*"`, while the claim — and the
repository's own test `test_start_with_concat_parentheses` — require
`"(ab)*"`.  The other two worked examples of the claim do hold, because
`RegexUnion.__str__` emits its own parentheses. -/
theorem C5_rendering_divergence :
    reStr (make_concat (make_union (.symbol "a") (.symbol "b")) (.symbol "c"))
      = "(a|b)c" ∧
    reStr (make_kleene_star (make_union (.symbol "a") (.symbol "b")))
      = "(a|b)*" ∧
    reStr (make_kleene_star (make_concat (.symbol "a") (.symbol "b")))
      = "ab*" ∧
    reStr (make_kleene_star (make_concat (.symbol "a") (.symbol "b")))
      ≠ "(ab)*" := by
  refine ⟨?_, ?_, ?_, ?_⟩ <;> decide

/-- Claim C6, counterexample: the smart constructor `make_kleene_star` does
not collapse `(ε|B)*` to `B*`; applied to the union `ε|b` it builds the
node `KleeneStar(Union(ε, b))`, which is not the node `KleeneStar(b)`
that the claim requires. -/
theorem C6_counterexample :
    make_kleene_star (make_union .emptyString (.symbol "b")) ≠
      make_kleene_star (.symbol "b") := by decide

/-- Claim C6 as amended: `make_kleene_star` maps `EmptyString` and
`EmptySet` to `EmptyString` and otherwise builds the node `KleeneStar(E)`
unchanged; the `(ε|B)* = B*` collapse is applied only at rendering time,
where `str(KleeneStar(Union(ε, B)))` and `str(KleeneStar(Union(B, ε)))`
both equal `str(KleeneStar(B))`. -/
theorem C6_kleene_star_amended (E B : Regex)
    (hE1 : E ≠ .emptyString) (hE2 : E ≠ .emptySet) :
    make_kleene_star .emptyString = .emptyString ∧
    make_kleene_star .emptySet = .emptyString ∧
    make_kleene_star E = .kleeneStar E ∧
    reStr (.kleeneStar (.union .emptyString B)) = reStr (.kleeneStar B) ∧
    reStr (.kleeneStar (.union B .emptyString)) = reStr (.kleeneStar B) := by
  refine ⟨rfl, rfl, ?_, ?_, ?_⟩
  · simp [make_kleene_star, hE1, hE2]
  · simp [reStr, render]
  · by_cases hB : B = .emptyString
    · subst hB; simp [reStr, render]
    · simp [reStr, render, hB]

/-- Witness for the amended claim C6 at `E = a`, `B = b`. -/
theorem C6_kleene_star_amended_witness :
    make_kleene_star (Regex.symbol "a") = .kleeneStar (.symbol "a") ∧
    reStr (.kleeneStar (.union .emptyString (.symbol "b")))
      = reStr (.kleeneStar (.symbol "b")) :=
  ⟨(C6_kleene_star_amended (.symbol "a") (.symbol "b")
      (by decide) (by decide)).2.2.1,
   (C6_kleene_star_amended (.symbol "a") (.symbol "b")
      (by decide) (by decide)).2.2.2.1⟩

/-! ## Automaton model

States and input symbols are Python strings.  A Python `dict` is embedded
as an association list with unique keys; `dget` is `d[k]` returning
`none` where Python would raise `KeyError`.  The `ValueError`s raised by
the automata are embedded as the constructors of `Err`, named as in the
specification's §7 error catalogue. -/

abbrev State := String
abbrev Sym := String

/-- Python dictionary lookup `d.get(k)`. -/
def dget {α : Type} (d : List (State × α)) (k : State) : Option α :=
  (d.find? (fun p => p.1 == k)).map (fun p => p.2)

/-- Error kinds raised by the automata (`ValueError`s in the source, named
after the specification's §7 catalogue). -/
inductive Err where
  | UnknownState
  | SymbolNotInAlphabet
  | NoTransition
  | InvalidInputSymbol (pos : Nat)
deriving DecidableEq, Repr

/-- Python `bool(xs & ys)` on sets embedded as lists. -/
def setIntersects (xs ys : List State) : Bool :=
  xs.any (fun x => ys.contains x)

/-- `DFA` from `automata/dfa.py` with the shared fields of
`fsa_base.py`'s `FSA`: alphabet, transition map `delta` (one target per
(state, symbol)), start state, final states. -/
structure DFA where
  alphabet : List Sym
  delta : List (State × List (Sym × State))
  start : State
  final_states : List State

/-- `FSA.get_states` from `fsa_base.py`: the keys of the transition map. -/
def DFA.get_states (M : DFA) : List State := M.delta.map (fun p => p.1)

/-- `DFA.step`: unknown state, then symbol outside the alphabet, then
missing transition, in that order. -/
def DFA.step (M : DFA) (state : State) (symbol : Sym) : Except Err State :=
  match dget M.delta state with
  | none => .error .UnknownState
  | some edges =>
    if M.alphabet.contains symbol then
      match dget edges symbol with
      | none => .error .NoTransition
      | some t => .ok t
    else .error .SymbolNotInAlphabet

/-- The loop of `DFA.accepts`, with `i` the position of the next input
character (Python's `enumerate` index, used in the `InvalidInputSymbol`
report). -/
def DFA.acceptsFrom (M : DFA) (i : Nat) (state : State) :
    List Sym → Except Err Bool
  | [] => .ok (M.final_states.contains state)
  | ch :: rest =>
    if M.alphabet.contains ch then
      match M.step state ch with
      | .error e => .error e
      | .ok next => M.acceptsFrom (i + 1) next rest
    else .error (.InvalidInputSymbol i)

/-- `DFA.accepts` from `automata/dfa.py`: run from the start state. -/
def DFA.accepts (M : DFA) (s : List Sym) : Except Err Bool :=
  M.acceptsFrom 0 M.start s

/-- `NFA` from `automata/nfa.py`: targets are sets of states, and the
empty-string key `""` in an edge map denotes an epsilon edge. -/
structure NFA where
  alphabet : List Sym
  delta : List (State × List (Sym × List State))
  start : State
  final_states : List State

/-- `FSA.get_states` for the non-deterministic automaton. -/
def NFA.get_states (A : NFA) : List State := A.delta.map (fun p => p.1)

/-- The epsilon successors consulted by `epsilon_closure`: empty when the
state is not a key of `delta` or has no `''` edge. -/
def epsTargets (A : NFA) (st : State) : List State :=
  match dget A.delta st with
  | none => []
  | some edges =>
    match dget edges "" with
    | none => []
    | some ts => ts

/-- Every transition target of the automaton; the epsilon-closure stack
only ever receives states from this list, which bounds the DFS. -/
def targetUniverse (A : NFA) : List State :=
  (A.delta.map (fun p => (p.2.map (fun e => e.2)).flatten)).flatten

theorem epsTargets_mem_universe (A : NFA) (st t : State)
    (h : t ∈ epsTargets A st) : t ∈ targetUniverse A := by
  unfold epsTargets at h
  revert h
  cases hd : dget A.delta st with
  | none => intro h; simp at h
  | some edges =>
    intro h
    simp only at h
    revert h
    cases he : dget edges "" with
    | none => intro h; simp at h
    | some ts =>
      intro h
      simp only at h
      unfold dget at hd he
      cases hfd : A.delta.find? (fun p => p.1 == st) with
      | none => rw [hfd] at hd; simp at hd
      | some prow =>
        rw [hfd] at hd; simp at hd
        cases hfe : edges.find? (fun p => p.1 == "") with
        | none => rw [hfe] at he; simp at he
        | some erow =>
          rw [hfe] at he; simp at he
          have hprow : prow ∈ A.delta := List.mem_of_find?_eq_some hfd
          have herow : erow ∈ edges := List.mem_of_find?_eq_some hfe
          unfold targetUniverse
          rw [List.mem_flatten]
          refine ⟨(prow.2.map (fun e => e.2)).flatten, ?_, ?_⟩
          · exact List.mem_map_of_mem _ hprow
          · rw [List.mem_flatten]
            refine ⟨erow.2, ?_, ?_⟩
            · rw [hd]; exact List.mem_map_of_mem _ herow
            · rw [he]; exact h

/-- The DFS loop of `NFA.epsilon_closure`: pop a state, push its unseen
epsilon successors onto both the closure and the stack.  The source adds
each epsilon target that is not yet in the closure; since the targets form
a Python set, `filter` + `dedup` collects exactly the states the loop body
adds before the next pop.  Termination: every pushed state comes from
`targetUniverse` and is new to the closure, so the number of universe
states outside the closure plus the stack length decreases. -/
def closure_loop (A : NFA) (closure : List State) (stack : List State) :
    List State :=
  match stack with
  | [] => closure
  | st :: rest =>
    let fresh := ((epsTargets A st).filter
      (fun t => ! closure.contains t)).dedup
    closure_loop A (fresh ++ closure) (fresh ++ rest)
termination_by
  ((targetUniverse A).toFinset \ closure.toFinset).card + stack.length
decreasing_by
  have hsub : (((epsTargets A st).filter (fun t => ! closure.contains t)).dedup).toFinset
      ⊆ (targetUniverse A).toFinset \ closure.toFinset := by
    intro x hx
    rw [List.mem_toFinset, List.mem_dedup, List.mem_filter] at hx
    rw [Finset.mem_sdiff, List.mem_toFinset, List.mem_toFinset]
    refine ⟨epsTargets_mem_universe A st x hx.1, ?_⟩
    have hc := hx.2
    simp only [Bool.not_eq_true', List.contains, List.elem_eq_mem,
      decide_eq_false_iff_not] at hc
    exact hc
  have hnd : (((epsTargets A st).filter (fun t => ! closure.contains t)).dedup).Nodup :=
    List.nodup_dedup _
  have hcard : (((epsTargets A st).filter (fun t => ! closure.contains t)).dedup).toFinset.card
      = (((epsTargets A st).filter (fun t => ! closure.contains t)).dedup).length :=
    List.toFinset_card_of_nodup hnd
  have hdistrib : (targetUniverse A).toFinset \
      ((((epsTargets A st).filter (fun t => ! closure.contains t)).dedup) ++ closure).toFinset
      = ((targetUniverse A).toFinset \ closure.toFinset) \
        (((epsTargets A st).filter (fun t => ! closure.contains t)).dedup).toFinset := by
    ext x
    simp only [Finset.mem_sdiff, List.toFinset_append, Finset.mem_union]
    tauto
  have hle := Finset.card_le_card hsub
  rw [hdistrib, Finset.card_sdiff hsub]
  simp only [List.length_append, List.length_cons]
  omega

/-- `NFA.epsilon_closure` from `automata/nfa.py`: closure and stack both
start as the given set of states. -/
def epsilon_closure (A : NFA) (states : List State) : List State :=
  closure_loop A states states

/-- `NFA.step`: the empty set when the state is not a key of `delta`;
otherwise `SymbolNotInAlphabet` when the symbol is outside the alphabet,
checked before the per-symbol lookup; otherwise the targets (empty when no
edge is labeled with the symbol). -/
def NFA.step (A : NFA) (state : State) (symbol : Sym) :
    Except Err (List State) :=
  match dget A.delta state with
  | none => .ok []
  | some edges =>
    if A.alphabet.contains symbol then
      match dget edges symbol with
      | none => .ok []
      | some ts => .ok ts
    else .error .SymbolNotInAlphabet

/-- The union accumulated by `NFA.step_nfa` over the members of the
current state set (an error from any member propagates, first member
first). -/
def union_steps (A : NFA) (symbol : Sym) : List State → Except Err (List State)
  | [] => .ok []
  | st :: rest =>
    match A.step st symbol with
    | .error e => .error e
    | .ok ts =>
      match union_steps A symbol rest with
      | .error e => .error e
      | .ok acc => .ok (ts ++ acc)

/-- `NFA.step_nfa`: union of `step` over each member, then epsilon-closed. -/
def NFA.step_nfa (A : NFA) (states : List State) (symbol : Sym) :
    Except Err (List State) :=
  match union_steps A symbol states with
  | .error e => .error e
  | .ok next_states => .ok (epsilon_closure A next_states)

/-- The loop of `NFA.accepts`: the alphabet check (with position `i`)
precedes the step; an empty current state set short-circuits to `False`. -/
def NFA.acceptsFrom (A : NFA) (i : Nat) (curr : List State) :
    List Sym → Except Err Bool
  | [] => .ok (setIntersects curr A.final_states)
  | ch :: rest =>
    if A.alphabet.contains ch then
      match A.step_nfa curr ch with
      | .error e => .error e
      | .ok next =>
        if next.isEmpty then .ok false
        else A.acceptsFrom (i + 1) next rest
    else .error (.InvalidInputSymbol i)

/-- `NFA.accepts` from `automata/nfa.py`: start from the epsilon closure
of the start state. -/
def NFA.accepts (A : NFA) (s : List Sym) : Except Err Bool :=
  A.acceptsFrom 0 (epsilon_closure A [A.start]) s

/-- The epsilon-transition example automaton of the specification (and of
the repository's `epsilon_nfa` test fixture): `q0 --ε--> q1`,
`q0 --a--> q0`, `q1 --b--> q2`, `q2 --ε--> q0`, start `q0`, final `{q2}`. -/
def epsilonNFA : NFA :=
  { alphabet := ["a", "b"]
  , delta := [("q0", [("", ["q1"]), ("a", ["q0"])]),
              ("q1", [("b", ["q2"])]),
              ("q2", [("", ["q0"])])]
  , start := "q0"
  , final_states := ["q2"] }

/-- The default automaton of `fsa_base.py`'s `FSA.__init__`: it accepts
strings with an even count of `a` and an odd count of `b` over `{a, b}`
(states track the parities; `S` = both even, start; `F` = even `a`, odd
`b`, final). -/
def defaultDFA : DFA :=
  { alphabet := ["a", "b"]
  , delta := [("S", [("a", "A"), ("b", "F")]),
              ("A", [("a", "S"), ("b", "B")]),
              ("B", [("a", "F"), ("b", "A")]),
              ("F", [("a", "B"), ("b", "S")])]
  , start := "S"
  , final_states := ["F"] }

/-- Claim C2: `DFA.accepts` starts at the start state, checks each
character against the alphabet before attempting a step (failing with
`InvalidInputSymbol` at the offending position), advances via `step`, and
finally answers membership of the reached state in the final-state set;
on the default even-`a`/odd-`b` automaton the four sample strings behave
as claimed (plus a sample of the position report). -/
theorem C2_dfa_accepts :
    (∀ (M : DFA) (s : List Sym), M.accepts s = M.acceptsFrom 0 M.start s) ∧
    (∀ (M : DFA) (i : Nat) (st : State) (ch : Sym) (rest : List Sym),
        M.alphabet.contains ch = false →
        M.acceptsFrom i st (ch :: rest) = .error (.InvalidInputSymbol i)) ∧
    (∀ (M : DFA) (i : Nat) (st : State),
        M.acceptsFrom i st [] = .ok (M.final_states.contains st)) ∧
    (∀ (M : DFA) (i : Nat) (st : State) (ch : Sym) (rest : List Sym)
        (st' : State), M.alphabet.contains ch = true →
        M.step st ch = .ok st' →
        M.acceptsFrom i st (ch :: rest) = M.acceptsFrom (i + 1) st' rest) ∧
    defaultDFA.accepts ["b"] = .ok true ∧
    defaultDFA.accepts [] = .ok false ∧
    defaultDFA.accepts ["a", "a", "b"] = .ok true ∧
    defaultDFA.accepts ["b", "a"] = .ok false ∧
    defaultDFA.accepts ["a", "z"] = .error (.InvalidInputSymbol 1) := by
  refine ⟨fun M s => rfl, ?_, fun M i st => rfl, ?_, rfl, rfl, rfl, rfl, rfl⟩
  · intro M i st ch rest h
    have h' : ch ∉ M.alphabet := by simpa using h
    simp [DFA.acceptsFrom, h']
  · intro M i st ch rest st' h hstep
    have h' : ch ∈ M.alphabet := by simpa using h
    simp [DFA.acceptsFrom, h', hstep]

/-- Witness for claim C2 at concrete inputs. -/
theorem C2_dfa_accepts_witness :
    defaultDFA.acceptsFrom 1 "A" ["z"] = .error (.InvalidInputSymbol 1) ∧
    defaultDFA.acceptsFrom 0 "S" ["b"] = defaultDFA.acceptsFrom 1 "F" [] :=
  ⟨C2_dfa_accepts.2.1 defaultDFA 1 "A" "z" [] (by decide),
   C2_dfa_accepts.2.2.2.1 defaultDFA 0 "S" "b" [] "F" (by decide) rfl⟩

/-- An automaton whose state `B` occurs only as a transition target, so it
has no entry in `delta`. -/
def noEdgeNFA : NFA :=
  { alphabet := ["a"]
  , delta := [("A", [("a", ["B"])])]
  , start := "A"
  , final_states := ["B"] }

/-- Claim C8, counterexample: for a state with no outgoing edges at all
(no `delta` entry), `NFA.step` returns the empty set before ever looking
at the alphabet, so an out-of-alphabet symbol does not raise
`SymbolNotInAlphabet` there — contradicting the claim that the alphabet
check fires even for such states. -/
theorem C8_counterexample :
    noEdgeNFA.alphabet.contains "z" = false ∧
    noEdgeNFA.step "B" "z" = .ok [] ∧
    noEdgeNFA.step "B" "z" ≠ .error .SymbolNotInAlphabet := by
  refine ⟨rfl, rfl, ?_⟩
  intro h
  simp [NFA.step, dget, noEdgeNFA, List.find?] at h

/-- Claim C8 as amended: when the state has no entry in the transition
map, `step` returns the empty set without checking the symbol; when it has
one, the `SymbolNotInAlphabet` check fires for a symbol outside the
alphabet before the per-symbol lookup, and otherwise `step` returns the
empty set when no edge is labeled with the symbol, or the target set. -/
theorem C8_step_amended (A : NFA) (state : State) (symbol : Sym) :
    (dget A.delta state = none → A.step state symbol = .ok []) ∧
    (∀ edges, dget A.delta state = some edges →
        A.alphabet.contains symbol = false →
        A.step state symbol = .error .SymbolNotInAlphabet) ∧
    (∀ edges, dget A.delta state = some edges →
        A.alphabet.contains symbol = true → dget edges symbol = none →
        A.step state symbol = .ok []) ∧
    (∀ edges ts, dget A.delta state = some edges →
        A.alphabet.contains symbol = true → dget edges symbol = some ts →
        A.step state symbol = .ok ts) := by
  refine ⟨?_, ?_, ?_, ?_⟩
  · intro h; simp [NFA.step, h]
  · intro edges h1 h2
    have h2' : symbol ∉ A.alphabet := by simpa using h2
    simp [NFA.step, h1, h2']
  · intro edges h1 h2 h3
    have h2' : symbol ∈ A.alphabet := by simpa using h2
    simp [NFA.step, h1, h2', h3]
  · intro edges ts h1 h2 h3
    have h2' : symbol ∈ A.alphabet := by simpa using h2
    simp [NFA.step, h1, h2', h3]

/-- Witness for the amended claim C8 on concrete states and symbols. -/
theorem C8_step_amended_witness :
    noEdgeNFA.step "B" "z" = .ok [] ∧
    noEdgeNFA.step "A" "z" = .error .SymbolNotInAlphabet ∧
    noEdgeNFA.step "A" "a" = .ok ["B"] :=
  ⟨(C8_step_amended noEdgeNFA "B" "z").1 rfl,
   (C8_step_amended noEdgeNFA "A" "z").2.1 [("a", ["B"])] rfl rfl,
   (C8_step_amended noEdgeNFA "A" "a").2.2.2 [("a", ["B"])] ["B"] rfl rfl rfl⟩

/-- The state set reached when an error is ignored; used to express the
run of `accepts` as a plain fold when every input character is valid (in
which case `step_nfa` cannot fail). -/
def stepPure (A : NFA) (curr : List State) (ch : Sym) : List State :=
  match A.step_nfa curr ch with
  | .ok next => next
  | .error _ => []

theorem step_nfa_ok (A : NFA) (curr : List State) (ch : Sym)
    (h : A.alphabet.contains ch = true) :
    A.step_nfa curr ch = .ok (stepPure A curr ch) := by
  have hsteps : ∀ sts : List State, ∃ acc, union_steps A ch sts = .ok acc := by
    intro sts
    induction sts with
    | nil => exact ⟨[], rfl⟩
    | cons st rest ih =>
      obtain ⟨acc, hacc⟩ := ih
      unfold union_steps
      rw [hacc]
      unfold NFA.step
      cases hd : dget A.delta st with
      | none => exact ⟨acc, rfl⟩
      | some edges =>
        rw [h]
        simp only [if_true]
        cases he : dget edges ch with
        | none => exact ⟨acc, rfl⟩
        | some ts => exact ⟨ts ++ acc, rfl⟩
  obtain ⟨acc, hacc⟩ := hsteps curr
  simp [NFA.step_nfa, stepPure, hacc]

theorem step_nfa_nil (A : NFA) (ch : Sym) : A.step_nfa [] ch = .ok [] := by
  simp [NFA.step_nfa, union_steps, epsilon_closure, closure_loop]

theorem stepPure_nil (A : NFA) (ch : Sym) : stepPure A [] ch = [] := by
  simp [stepPure, step_nfa_nil]

theorem foldl_stepPure_nil (A : NFA) (s : List Sym) :
    s.foldl (stepPure A) [] = [] := by
  induction s with
  | nil => rfl
  | cons ch rest ih => rw [List.foldl_cons, stepPure_nil]; exact ih

theorem acceptsFrom_foldl (A : NFA) (s : List Sym) :
    ∀ (i : Nat) (curr : List State),
      (∀ c ∈ s, A.alphabet.contains c = true) →
      A.acceptsFrom i curr s =
        .ok (setIntersects (s.foldl (stepPure A) curr) A.final_states) := by
  induction s with
  | nil => intro i curr _; rfl
  | cons ch rest ih =>
    intro i curr h
    have hch : A.alphabet.contains ch = true := h ch (List.mem_cons_self ch rest)
    have hrest : ∀ c ∈ rest, A.alphabet.contains c = true :=
      fun c hc => h c (List.mem_cons_of_mem ch hc)
    unfold NFA.acceptsFrom
    rw [hch]
    simp only [if_true]
    rw [step_nfa_ok A curr ch hch]
    by_cases hemp : stepPure A curr ch = []
    · simp only [hemp, List.isEmpty_nil, List.foldl_cons, if_true]
      rw [foldl_stepPure_nil]
      rfl
    · have : (stepPure A curr ch).isEmpty = false := by
        cases hsp : stepPure A curr ch with
        | nil => exact absurd hsp hemp
        | cons x xs => rfl
      simp only [this]
      rw [List.foldl_cons]
      exact ih (i + 1) (stepPure A curr ch) hrest

/-- Claim C1: `NFA.accepts` begins with the epsilon closure of the start
state (the empty string is accepted iff that closure meets the final
states); a character outside the alphabet fails with `InvalidInputSymbol`
at its position; an empty state set after a step rejects immediately;
otherwise the run advances via `step_nfa`, and over a fully-valid input
the answer is exactly whether the set reached after consuming the whole
string intersects the final states; the four sample strings on the
epsilon-transition example automaton behave as claimed. -/
theorem C1_nfa_accepts :
    (∀ A : NFA, A.accepts [] =
        .ok (setIntersects (epsilon_closure A [A.start]) A.final_states)) ∧
    (∀ (A : NFA) (i : Nat) (curr : List State) (ch : Sym) (rest : List Sym),
        A.alphabet.contains ch = false →
        A.acceptsFrom i curr (ch :: rest) = .error (.InvalidInputSymbol i)) ∧
    (∀ (A : NFA) (i : Nat) (curr : List State) (ch : Sym) (rest : List Sym),
        A.alphabet.contains ch = true → A.step_nfa curr ch = .ok [] →
        A.acceptsFrom i curr (ch :: rest) = .ok false) ∧
    (∀ (A : NFA) (i : Nat) (curr : List State) (ch : Sym) (rest : List Sym)
        (next : List State), A.alphabet.contains ch = true →
        A.step_nfa curr ch = .ok next → next ≠ [] →
        A.acceptsFrom i curr (ch :: rest) = A.acceptsFrom (i + 1) next rest) ∧
    (∀ (A : NFA) (s : List Sym), (∀ c ∈ s, A.alphabet.contains c = true) →
        A.accepts s = .ok (setIntersects
          (s.foldl (stepPure A) (epsilon_closure A [A.start]))
          A.final_states)) ∧
    epsilonNFA.accepts [] = .ok false ∧
    epsilonNFA.accepts ["b"] = .ok true ∧
    epsilonNFA.accepts ["a", "a", "b"] = .ok true ∧
    epsilonNFA.accepts ["b", "b"] = .ok true := by
  refine ⟨fun A => rfl, ?_, ?_, ?_, ?_, ?_, ?_, ?_, ?_⟩
  · intro A i curr ch rest h
    have h' : ch ∉ A.alphabet := by simpa using h
    simp [NFA.acceptsFrom, h']
  · intro A i curr ch rest h hstep
    have h' : ch ∈ A.alphabet := by simpa using h
    simp [NFA.acceptsFrom, h', hstep]
  · intro A i curr ch rest next h hstep hne
    have h' : ch ∈ A.alphabet := by simpa using h
    have hne' : next.isEmpty = false := by
      cases next with
      | nil => exact absurd rfl hne
      | cons x xs => rfl
    simp [NFA.acceptsFrom, h', hstep, hne', hne]
  · intro A s h
    exact acceptsFrom_foldl A s 0 (epsilon_closure A [A.start]) h
  all_goals
    simp [NFA.accepts, NFA.acceptsFrom, NFA.step_nfa, union_steps, NFA.step,
      epsilon_closure, closure_loop, epsTargets, dget, List.find?,
      setIntersects, epsilonNFA]

/-- Witness for claim C1 at concrete inputs. -/
theorem C1_nfa_accepts_witness :
    epsilonNFA.acceptsFrom 0 ["q0"] ["z"] = .error (.InvalidInputSymbol 0) ∧
    epsilonNFA.accepts ["b"] = .ok (setIntersects
      (["b"].foldl (stepPure epsilonNFA)
        (epsilon_closure epsilonNFA [epsilonNFA.start]))
      epsilonNFA.final_states) :=
  ⟨C1_nfa_accepts.2.1 epsilonNFA 0 ["q0"] "z" [] (by decide),
   C1_nfa_accepts.2.2.2.2.1 epsilonNFA ["b"] (by decide)⟩

/-! ## State elimination (`regex_convertible.py`)

The matrix `R` is a Python dict of dicts.  Reading `R[i][j]` raises
`KeyError` when a key is absent, which the embedding models by returning
`none`; an assignment `R[i][j] = v` first looks up the row `R[i]`
(`KeyError` when absent) and then adds or overwrites the inner key. -/

abbrev Row := List (State × Regex)
abbrev RMatrix := List (State × Row)

/-- Python dictionary assignment `d[k] = v`: overwrite in place, or append
a new key. -/
def dset {α : Type} (d : List (State × α)) (k : State) (v : α) :
    List (State × α) :=
  if d.any (fun p => p.1 == k) then
    d.map (fun p => if p.1 == k then (k, v) else p)
  else d ++ [(k, v)]

/-- `R[i][j]` as an option. -/
def mget (R : RMatrix) (i j : State) : Option Regex :=
  match dget R i with
  | none => none
  | some row => dget row j

/-- `R[i][j] = v`: fails (Python `KeyError`) when row `i` is absent. -/
def mwrite (R : RMatrix) (i j : State) (v : Regex) : Option RMatrix :=
  match dget R i with
  | none => none
  | some row => some (dset R i (dset row j v))

/-- The initialization loop of `to_regex`: `R[s1][s2] = EmptySet()` for
all pairs over `get_states()`. -/
def initR (states : List State) : RMatrix :=
  states.map (fun s1 => (s1, states.map (fun s2 => (s2, Regex.emptySet))))

/-- The label regex of an edge: the empty label is an epsilon edge. -/
def symbolRegex (symbol : Sym) : Regex :=
  if symbol = "" then .emptyString else .symbol symbol

/-- One target of one edge: read `R[from][to]` (a `KeyError` if `to` is
not a matrix key), keep the label regex if the entry is still `EmptySet`,
else union it in. -/
def aggregate_target (R : RMatrix) (from_state : State)
    (symbol_regex : Regex) (to_state : State) : Option RMatrix :=
  match mget R from_state to_state with
  | none => none
  | some curr =>
    if curr = .emptySet then mwrite R from_state to_state symbol_regex
    else mwrite R from_state to_state (make_union curr symbol_regex)

def aggregate_targets (R : RMatrix) (from_state : State)
    (symbol_regex : Regex) : List State → Option RMatrix
  | [] => some R
  | t :: ts =>
    match aggregate_target R from_state symbol_regex t with
    | none => none
    | some R' => aggregate_targets R' from_state symbol_regex ts

def aggregate_symbols (R : RMatrix) (from_state : State) :
    List (Sym × List State) → Option RMatrix
  | [] => some R
  | (symbol, targets) :: rest =>
    match aggregate_targets R from_state (symbolRegex symbol) targets with
    | none => none
    | some R' => aggregate_symbols R' from_state rest

/-- The edge-aggregation loop of `to_regex` over `delta.items()` (the
non-deterministic branch: each target collection is a set). -/
def aggregate_all (R : RMatrix) :
    List (State × List (Sym × List State)) → Option RMatrix
  | [] => some R
  | (from_state, transitions) :: rest =>
    match aggregate_symbols R from_state transitions with
    | none => none
    | some R' => aggregate_all R' rest

/-- Python `set.add`. -/
def pyInsert (xs : List State) (x : State) : List State :=
  if xs.contains x then xs else xs ++ [x]

/-- The `for state in states` loop of the multi-final-state block:
`R[state][F_new] = EmptySet()` for `state ≠ F_new`, then unconditionally
`R[F_new][state] = EmptySet()`. -/
def addEmptyEdges (R : RMatrix) (nf : State) : List State → Option RMatrix
  | [] => some R
  | st :: rest =>
    match (if st = nf then some R else mwrite R st nf .emptySet) with
    | none => none
    | some R1 =>
      match mwrite R1 nf st .emptySet with
      | none => none
      | some R2 => addEmptyEdges R2 nf rest

/-- The `for final_state in final_states` loop: an epsilon entry from
every original final state to the new one. -/
def addEpsilonEdges (R : RMatrix) (nf : State) : List State → Option RMatrix
  | [] => some R
  | f :: rest =>
    match mwrite R f nf .emptyString with
    | none => none
    | some R' => addEpsilonEdges R' nf rest

/-- The final-state selection block of `to_regex`: with more than one
final state, add the fixed name `"F_new"` to the state set, give it a
fresh empty row, surround it with `EmptySet` entries and route every
original final state to it by an `EmptyString` entry; otherwise use the
one existing final state (an automaton without final states makes
`next(iter(...))` raise, modelled as `none`). -/
def synth_final (states finals : List State) (R : RMatrix) :
    Option (State × List State × RMatrix) :=
  if 1 < finals.length then
    match addEmptyEdges (dset R "F_new" []) "F_new" (pyInsert states "F_new") with
    | none => none
    | some R1 =>
      match addEpsilonEdges R1 "F_new" finals with
      | none => none
      | some R2 => some ("F_new", pyInsert states "F_new", R2)
  else
    match finals with
    | [] => none
    | f :: _ => some (f, states, R)

/-- One `(i, j)` update of an elimination pass, reading `R[i][j]`,
`R[i][k]`, `R[k][k]`, `R[k][j]` from the current matrix and writing
`R[i][j]`. -/
def elim_pair (R : RMatrix) (k i j : State) : Option RMatrix :=
  match mget R i j with
  | none => none
  | some old_path =>
    match mget R i k with
    | none => none
    | some rik =>
      match mget R k k with
      | none => none
      | some rkk =>
        match mget R k j with
        | none => none
        | some rkj =>
          mwrite R i j (make_union old_path
            (make_concat (make_concat rik (make_kleene_star rkk)) rkj))

def elim_inner (R : RMatrix) (k i : State) : List State → Option RMatrix
  | [] => some R
  | j :: js =>
    match elim_pair R k i j with
    | none => none
    | some R' => elim_inner R' k i js

def elim_outer (R : RMatrix) (k : State) (remaining : List State) :
    List State → Option RMatrix
  | [] => some R
  | i :: rest =>
    match elim_inner R k i remaining with
    | none => none
    | some R' => elim_outer R' k remaining rest

/-- The elimination pass for one state `k`: the double loop over
`remaining_states`. -/
def eliminate_pass (R : RMatrix) (k : State) (remaining : List State) :
    Option RMatrix :=
  elim_outer R k remaining remaining

/-- The outer elimination loop: one pass per state of the (fixed)
elimination order, removing the state from the state set afterwards. -/
def elim_loop (R : RMatrix) (states : List State) :
    List State → Option (RMatrix × List State)
  | [] => some (R, states)
  | k :: ks =>
    match eliminate_pass R k (states.filter (fun s => ! (s == k))) with
    | none => none
    | some R' => elim_loop R' (states.erase k) ks

/-- `RegexConvertible.to_regex` from `regex_convertible.py` (the
non-deterministic shape).  Python's set iteration order is embedded as
the list order of `get_states`. -/
def NFA.to_regex (A : NFA) : Option Regex :=
  match aggregate_all (initR A.get_states) A.delta with
  | none => none
  | some R1 =>
    match synth_final A.get_states A.final_states R1 with
    | none => none
    | some (final_state, states2, R2) =>
      match elim_loop R2 states2
          (states2.filter (fun s => ! (s == A.start || s == final_state))) with
      | none => none
      | some (R3, _) =>
        match mget R3 A.start A.start with
        | none => none
        | some start_loop =>
          match mget R3 A.start final_state with
          | none => none
          | some direct_path =>
            if start_loop = .emptySet then some direct_path
            else some (make_concat (make_kleene_star start_loop) direct_path)

/-! ### Dictionary lemmas -/

theorem dget_cons {α : Type} (p : State × α) (d : List (State × α))
    (k : State) :
    dget (p :: d) k = if p.1 = k then some p.2 else dget d k := by
  by_cases h : p.1 = k
  · have h' : (p.1 == k) = true := by simpa using h
    simp [dget, List.find?, h', h]
  · have h' : (p.1 == k) = false := by simpa using h
    simp [dget, List.find?, h', h]

theorem dget_map_update_ne {α : Type} (k k' : State) (v : α) (h : k' ≠ k)
    (d : List (State × α)) :
    dget (d.map (fun p => if p.1 == k then (k, v) else p)) k' = dget d k' := by
  induction d with
  | nil => rfl
  | cons p rest ih =>
    rw [List.map_cons]
    by_cases hp : p.1 = k
    · rw [if_pos (by simpa using hp)]
      rw [dget_cons, dget_cons]
      have h1 : ¬ ((k, v).1 = k') := fun hc => h hc.symm
      have h2 : ¬ (p.1 = k') := by rw [hp]; exact fun hc => h hc.symm
      rw [if_neg h1, if_neg h2]
      exact ih
    · rw [if_neg (by simpa using hp)]
      rw [dget_cons, dget_cons]
      by_cases hpk : p.1 = k'
      · rw [if_pos hpk, if_pos hpk]
      · rw [if_neg hpk, if_neg hpk]
        exact ih

theorem dget_map_update_self {α : Type} (k : State) (v : α)
    (d : List (State × α)) (h : d.any (fun p => p.1 == k) = true) :
    dget (d.map (fun p => if p.1 == k then (k, v) else p)) k = some v := by
  induction d with
  | nil => simp at h
  | cons p rest ih =>
    rw [List.map_cons]
    by_cases hp : p.1 = k
    · rw [if_pos (by simpa using hp)]
      rw [dget_cons, if_pos rfl]
    · rw [if_neg (by simpa using hp)]
      rw [dget_cons, if_neg hp]
      apply ih
      have hp' : (p.1 == k) = false := by simpa using hp
      rw [List.any_cons, hp'] at h
      simpa using h

theorem dget_none_of_not_any {α : Type} (k : State) (d : List (State × α))
    (h : d.any (fun p => p.1 == k) = false) : dget d k = none := by
  induction d with
  | nil => rfl
  | cons p rest ih =>
    rw [List.any_cons, Bool.or_eq_false_iff] at h
    rw [dget_cons, if_neg (by simpa using h.1)]
    exact ih h.2

theorem dget_append_single {α : Type} (d : List (State × α)) (k k' : State)
    (v : α) :
    dget (d ++ [(k, v)]) k' =
      match dget d k' with
      | some w => some w
      | none => if k = k' then some v else none := by
  induction d with
  | nil =>
    rw [List.nil_append, dget_cons]
    rfl
  | cons p rest ih =>
    rw [List.cons_append, dget_cons, dget_cons]
    by_cases hp : p.1 = k'
    · rw [if_pos hp, if_pos hp]
    · rw [if_neg hp, if_neg hp]
      exact ih

/-- Python dictionary write/read: reading back the written key yields the
value, any other key is untouched. -/
theorem dget_dset {α : Type} (d : List (State × α)) (k k' : State) (v : α) :
    dget (dset d k v) k' = if k' = k then some v else dget d k' := by
  unfold dset
  by_cases hany : d.any (fun p => p.1 == k) = true
  · rw [if_pos hany]
    by_cases hk : k' = k
    · rw [if_pos hk, hk]
      exact dget_map_update_self k v d hany
    · rw [if_neg hk]
      exact dget_map_update_ne k k' v hk d
  · rw [if_neg hany]
    rw [dget_append_single]
    have hanyf : d.any (fun p => p.1 == k) = false := by
      cases hb : d.any (fun p => p.1 == k) with
      | false => rfl
      | true => exact absurd hb hany
    have hnone : dget d k = none := dget_none_of_not_any k d hanyf
    by_cases hk : k' = k
    · subst hk; simp [hnone]
    · have hk' : ¬ (k = k') := fun hc => hk hc.symm
      cases hd : dget d k' with
      | some w => simp [hk]
      | none => simp [hk, hk']

theorem mget_eq (R : RMatrix) (i j : State) (row : Row)
    (h : dget R i = some row) : mget R i j = dget row j := by
  unfold mget; rw [h]

theorem mwrite_eq (R : RMatrix) (i j : State) (v : Regex) (row : Row)
    (h : dget R i = some row) :
    mwrite R i j v = some (dset R i (dset row j v)) := by
  unfold mwrite; rw [h]

theorem mwrite_isSome (R : RMatrix) (i j : State) (v : Regex)
    (h : (dget R i).isSome = true) : ∃ R', mwrite R i j v = some R' := by
  unfold mwrite
  cases hr : dget R i with
  | none => rw [hr] at h; simp at h
  | some row => exact ⟨_, rfl⟩

/-- Effect of a matrix write on every entry. -/
theorem mget_mwrite (R R' : RMatrix) (i j : State) (v : Regex)
    (h : mwrite R i j v = some R') (i' j' : State) :
    mget R' i' j' =
      if i' = i then (if j' = j then some v else mget R i j')
      else mget R i' j' := by
  unfold mwrite at h
  cases hrow : dget R i with
  | none => rw [hrow] at h; simp at h
  | some row =>
    rw [hrow] at h
    simp only [Option.some.injEq] at h
    subst h
    unfold mget
    rw [dget_dset]
    by_cases hi : i' = i
    · rw [if_pos hi, if_pos hi]
      show dget (dset row j v) j' = if j' = j then some v else mget R i j'
      rw [dget_dset, mget_eq R i j' row hrow]
    · rw [if_neg hi, if_neg hi]

/-- A matrix write preserves which rows exist. -/
theorem dget_mwrite_isSome (R R' : RMatrix) (i j : State) (v : Regex)
    (h : mwrite R i j v = some R') (k : State) :
    (dget R' k).isSome = (dget R k).isSome := by
  unfold mwrite at h
  cases hrow : dget R i with
  | none => rw [hrow] at h; simp at h
  | some row =>
    rw [hrow] at h
    simp only [Option.some.injEq] at h
    subst h
    rw [dget_dset]
    by_cases hk : k = i
    · subst hk; rw [if_pos rfl, hrow]; rfl
    · rw [if_neg hk]

/-! ### Claim C4: the synthesized final state -/

/-- Claim C4, counterexample: `to_regex` always names its new final state
`"F_new"`; on an automaton that already has a state named `F_new` the
synthesized final state is therefore already present in the state set,
contradicting the claimed freshness. -/
theorem C4_counterexample :
    (synth_final ["F_new", "q1"] ["F_new", "q1"]
        (initR ["F_new", "q1"])).map (fun r => r.1) = some "F_new" ∧
    "F_new" ∈ ["F_new", "q1"] := by
  refine ⟨?_, by decide⟩
  rfl

theorem addEpsilonEdges_spec (nf : State) :
    ∀ (finals : List State) (R : RMatrix),
      (∀ f ∈ finals, (dget R f).isSome = true) →
      ∃ R', addEpsilonEdges R nf finals = some R' ∧
        (∀ f ∈ finals, mget R' f nf = some .emptyString) ∧
        (∀ i' j', (j' ≠ nf ∨ i' ∉ finals) → mget R' i' j' = mget R i' j') ∧
        (∀ k, (dget R' k).isSome = (dget R k).isSome) := by
  intro finals
  induction finals with
  | nil =>
    intro R _
    exact ⟨R, rfl, by simp, fun i' j' _ => rfl, fun k => rfl⟩
  | cons f rest ih =>
    intro R hrows
    obtain ⟨R1, hR1⟩ :=
      mwrite_isSome R f nf .emptyString (hrows f (List.mem_cons_self f rest))
    have hrows1 : ∀ g ∈ rest, (dget R1 g).isSome = true := by
      intro g hg
      rw [dget_mwrite_isSome R R1 f nf .emptyString hR1]
      exact hrows g (List.mem_cons_of_mem f hg)
    obtain ⟨R', hstep, hval, hpres, hsome⟩ := ih R1 hrows1
    refine ⟨R', ?_, ?_, ?_, ?_⟩
    · unfold addEpsilonEdges
      simp only [hR1]
      exact hstep
    · intro g hg
      rcases List.mem_cons.mp hg with hgf | hgr
      · subst hgf
        by_cases hgrest : g ∈ rest
        · exact hval g hgrest
        · rw [hpres g nf (Or.inr hgrest)]
          rw [mget_mwrite R R1 g nf .emptyString hR1]
          simp
      · exact hval g hgr
    · intro i' j' hcond
      have hcond' : j' ≠ nf ∨ i' ∉ rest := by
        rcases hcond with h | h
        · exact Or.inl h
        · exact Or.inr (fun hc => h (List.mem_cons_of_mem f hc))
      rw [hpres i' j' hcond']
      rw [mget_mwrite R R1 f nf .emptyString hR1]
      have : ¬ (i' = f ∧ j' = nf) := by
        rintro ⟨hif, hjn⟩
        rcases hcond with h | h
        · exact h hjn
        · exact h (hif ▸ List.mem_cons_self f rest)
      by_cases hif : i' = f
      · rw [if_pos hif]
        have hjn : j' ≠ nf := fun hc => this ⟨hif, hc⟩
        rw [if_neg hjn, hif]
      · rw [if_neg hif]
    · intro k
      rw [hsome k, dget_mwrite_isSome R R1 f nf .emptyString hR1]

theorem addEmptyEdges_spec (nf : State) :
    ∀ (sts : List State) (R : RMatrix),
      (dget R nf).isSome = true →
      (∀ s ∈ sts, (dget R s).isSome = true ∨ s = nf) →
      ∃ R', addEmptyEdges R nf sts = some R' ∧
        (∀ k, (dget R' k).isSome = (dget R k).isSome) := by
  intro sts
  induction sts with
  | nil => intro R _ _; exact ⟨R, rfl, fun k => rfl⟩
  | cons st rest ih =>
    intro R hnf hrows
    have hstep1 : ∃ R1, (if st = nf then some R else mwrite R st nf .emptySet)
        = some R1 ∧ ∀ k, (dget R1 k).isSome = (dget R k).isSome := by
      by_cases hst : st = nf
      · exact ⟨R, by rw [if_pos hst], fun k => rfl⟩
      · rcases hrows st (List.mem_cons_self st rest) with hs | hs
        · obtain ⟨R1, hR1⟩ := mwrite_isSome R st nf .emptySet hs
          exact ⟨R1, by rw [if_neg hst]; exact hR1,
            fun k => dget_mwrite_isSome R R1 st nf .emptySet hR1 k⟩
        · exact absurd hs hst
    obtain ⟨R1, hR1, hsome1⟩ := hstep1
    have hnf1 : (dget R1 nf).isSome = true := by rw [hsome1]; exact hnf
    obtain ⟨R2, hR2⟩ := mwrite_isSome R1 nf st .emptySet hnf1
    have hsome2 : ∀ k, (dget R2 k).isSome = (dget R1 k).isSome :=
      fun k => dget_mwrite_isSome R1 R2 nf st .emptySet hR2 k
    have hnf2 : (dget R2 nf).isSome = true := by rw [hsome2]; exact hnf1
    have hrows2 : ∀ s ∈ rest, (dget R2 s).isSome = true ∨ s = nf := by
      intro s hs
      rcases hrows s (List.mem_cons_of_mem st hs) with h | h
      · exact Or.inl (by rw [hsome2, hsome1]; exact h)
      · exact Or.inr h
    obtain ⟨R', hrec, hsome'⟩ := ih R2 hnf2 hrows2
    refine ⟨R', ?_, ?_⟩
    · unfold addEmptyEdges
      simp only [hR1, hR2]
      exact hrec
    · intro k
      rw [hsome' k, hsome2 k, hsome1 k]

/-- Claim C4 as amended: with more than one final state, `to_regex` uses
the fixed name `"F_new"` for the new final state — fresh only when no
existing state is already named `F_new` — adds it to the state set, sets
the matrix entry from every original final state to it to `EmptyString`,
and uses it as the sole final state from then on; with exactly one final
state, that state is used directly. -/
theorem C4_final_state_amended (states finals : List State) (R : RMatrix)
    (hlen : 1 < finals.length)
    (hstates : ∀ s ∈ states, (dget R s).isSome = true)
    (hfin : ∀ f ∈ finals, (dget R f).isSome = true ∨ f = "F_new") :
    (∃ R', synth_final states finals R
        = some ("F_new", pyInsert states "F_new", R') ∧
      ∀ f ∈ finals, mget R' f "F_new" = some .emptyString) ∧
    (∀ (g : State) (S : List State) (Q : RMatrix),
        synth_final S [g] Q = some (g, S, Q)) := by
  constructor
  · have h0 : ∀ k, (dget (dset R "F_new" []) k).isSome =
        (if k = "F_new" then true else (dget R k).isSome) := by
      intro k
      rw [dget_dset]
      by_cases hk : k = "F_new"
      · simp [hk]
      · simp [hk]
    have hnf0 : (dget (dset R "F_new" []) "F_new").isSome = true := by
      rw [h0]; simp
    have hrows0 : ∀ s ∈ pyInsert states "F_new",
        (dget (dset R "F_new" []) s).isSome = true ∨ s = "F_new" := by
      intro s hs
      by_cases hsnf : s = "F_new"
      · exact Or.inr hsnf
      · have hsmem : s ∈ states := by
          unfold pyInsert at hs
          by_cases hc : states.contains "F_new"
          · rw [if_pos hc] at hs; exact hs
          · rw [if_neg hc] at hs
            rcases List.mem_append.mp hs with h | h
            · exact h
            · simp at h; exact absurd h hsnf
        refine Or.inl ?_
        rw [h0]
        rw [if_neg hsnf]
        exact hstates s hsmem
    obtain ⟨R1, hR1, hsome1⟩ :=
      addEmptyEdges_spec "F_new" (pyInsert states "F_new")
        (dset R "F_new" []) hnf0 hrows0
    have hrows1 : ∀ f ∈ finals, (dget R1 f).isSome = true := by
      intro f hf
      rw [hsome1, h0]
      rcases hfin f hf with h | h
      · by_cases hfn : f = "F_new" <;> simp [hfn, h]
      · simp [h]
    obtain ⟨R2, hR2, hval, _, _⟩ :=
      addEpsilonEdges_spec "F_new" finals R1 hrows1
    refine ⟨R2, ?_, hval⟩
    unfold synth_final
    rw [if_pos hlen]
    simp only [hR1, hR2]
  · intro g S Q
    unfold synth_final
    rw [if_neg (by simp)]

/-- Witness for the amended claim C4: a two-final-state matrix over
`{q0, q1}`, and the single-final-state identity at `q0`. -/
theorem C4_final_state_amended_witness :
    (∃ R', synth_final ["q0", "q1"] ["q0", "q1"] (initR ["q0", "q1"])
        = some ("F_new", pyInsert ["q0", "q1"] "F_new", R') ∧
      ∀ f ∈ ["q0", "q1"], mget R' f "F_new" = some .emptyString) ∧
    (∀ (g : State) (S : List State) (Q : RMatrix),
        synth_final S [g] Q = some (g, S, Q)) :=
  C4_final_state_amended ["q0", "q1"] ["q0", "q1"] (initR ["q0", "q1"])
    (by decide) (by decide) (by decide)

/-! ### Claim C3: the elimination pass reads pre-pass values

The double loop updates only entries `(i, j)` with `i ≠ k` and `j ≠ k`,
while every right-hand-side read other than the pair's own entry lies on
row `k` or column `k`; therefore the sequential in-place updates behave as
if the whole pass read the matrix as it was when the pass began. -/

theorem elim_pair_spec (R : RMatrix) (k i j : State)
    (vij vik vkk vkj : Regex)
    (hij : mget R i j = some vij) (hik : mget R i k = some vik)
    (hkk : mget R k k = some vkk) (hkj : mget R k j = some vkj) :
    ∃ R', elim_pair R k i j = some R' ∧
      ∀ i' j', mget R' i' j' =
        if i' = i ∧ j' = j then
          some (make_union vij
            (make_concat (make_concat vik (make_kleene_star vkk)) vkj))
        else mget R i' j' := by
  have hrow : (dget R i).isSome = true := by
    unfold mget at hij
    cases hr : dget R i with
    | none => rw [hr] at hij; simp at hij
    | some row => rfl
  obtain ⟨R', hw⟩ := mwrite_isSome R i j
    (make_union vij (make_concat (make_concat vik (make_kleene_star vkk)) vkj))
    hrow
  refine ⟨R', ?_, ?_⟩
  · unfold elim_pair
    simp only [hij, hik, hkk, hkj]
    exact hw
  · intro i' j'
    rw [mget_mwrite R R' i j _ hw i' j']
    by_cases hi : i' = i
    · by_cases hj : j' = j
      · rw [if_pos hi, if_pos hj, if_pos ⟨hi, hj⟩]
      · rw [if_pos hi, if_neg hj, if_neg (fun hc => hj hc.2), hi]
    · rw [if_neg hi, if_neg (fun hc => hi hc.1)]

theorem elim_inner_spec (k i : State) (V : State → State → Regex)
    (hik : i ≠ k) :
    ∀ (js : List State) (R : RMatrix),
      js.Nodup → (∀ j ∈ js, j ≠ k) →
      mget R i k = some (V i k) →
      mget R k k = some (V k k) →
      (∀ j ∈ js, mget R k j = some (V k j)) →
      (∀ j ∈ js, mget R i j = some (V i j)) →
      ∃ R', elim_inner R k i js = some R' ∧
        (∀ j ∈ js, mget R' i j = some (make_union (V i j)
          (make_concat (make_concat (V i k) (make_kleene_star (V k k)))
            (V k j)))) ∧
        (∀ i' j', (i' ≠ i ∨ j' ∉ js) → mget R' i' j' = mget R i' j') := by
  intro js
  induction js with
  | nil =>
    intro R _ _ _ _ _ _
    exact ⟨R, rfl, by simp, fun i' j' _ => rfl⟩
  | cons j js ih =>
    intro R hnd hnk hik' hkk' hkrow hirow
    have hjk : j ≠ k := hnk j (List.mem_cons_self j js)
    obtain ⟨R1, hpair, hent⟩ := elim_pair_spec R k i j
      (V i j) (V i k) (V k k) (V k j)
      (hirow j (List.mem_cons_self j js)) hik' hkk'
      (hkrow j (List.mem_cons_self j js))
    have hjnotin : j ∉ js := (List.nodup_cons.mp hnd).1
    have hndtl : js.Nodup := (List.nodup_cons.mp hnd).2
    have hik1 : mget R1 i k = some (V i k) := by
      rw [hent i k, if_neg (fun hc => hjk hc.2.symm)]
      exact hik'
    have hkk1 : mget R1 k k = some (V k k) := by
      rw [hent k k, if_neg (fun hc => hik hc.1.symm)]
      exact hkk'
    have hkrow1 : ∀ j' ∈ js, mget R1 k j' = some (V k j') := by
      intro j' hj'
      rw [hent k j', if_neg (fun hc => hik hc.1.symm)]
      exact hkrow j' (List.mem_cons_of_mem j hj')
    have hirow1 : ∀ j' ∈ js, mget R1 i j' = some (V i j') := by
      intro j' hj'
      rw [hent i j',
        if_neg (fun (hc : i = i ∧ j' = j) => hjnotin (hc.2 ▸ hj'))]
      exact hirow j' (List.mem_cons_of_mem j hj')
    obtain ⟨R2, hrec, hvals, hpres⟩ := ih R1 hndtl
      (fun j' hj' => hnk j' (List.mem_cons_of_mem j hj'))
      hik1 hkk1 hkrow1 hirow1
    refine ⟨R2, ?_, ?_, ?_⟩
    · unfold elim_inner
      simp only [hpair]
      exact hrec
    · intro j'' hj''
      rcases List.mem_cons.mp hj'' with hja | hjb
      · subst hja
        rw [hpres i j'' (Or.inr hjnotin)]
        rw [hent i j'', if_pos ⟨rfl, rfl⟩]
      · exact hvals j'' hjb
    · intro i' j' hcond
      have hcond' : i' ≠ i ∨ j' ∉ js := by
        rcases hcond with h | h
        · exact Or.inl h
        · exact Or.inr (fun hc => h (List.mem_cons_of_mem j hc))
      rw [hpres i' j' hcond']
      rw [hent i' j']
      rw [if_neg ?_]
      rintro ⟨hifst, hjsnd⟩
      rcases hcond with h | h
      · exact h hifst
      · exact h (hjsnd ▸ List.mem_cons_self j js)

theorem elim_outer_spec (k : State) (V : State → State → Regex)
    (remaining : List State) (hndr : remaining.Nodup)
    (hknr : ∀ j ∈ remaining, j ≠ k) :
    ∀ (outer : List State) (R : RMatrix),
      outer.Nodup → (∀ i ∈ outer, i ∈ remaining) →
      (∀ i ∈ outer, mget R i k = some (V i k)) →
      mget R k k = some (V k k) →
      (∀ j ∈ remaining, mget R k j = some (V k j)) →
      (∀ i ∈ outer, ∀ j ∈ remaining, mget R i j = some (V i j)) →
      ∃ R', elim_outer R k remaining outer = some R' ∧
        (∀ i ∈ outer, ∀ j ∈ remaining, mget R' i j = some (make_union (V i j)
          (make_concat (make_concat (V i k) (make_kleene_star (V k k)))
            (V k j)))) ∧
        (∀ i' j', i' ∉ outer → mget R' i' j' = mget R i' j') := by
  intro outer
  induction outer with
  | nil =>
    intro R _ _ _ _ _ _
    exact ⟨R, rfl, by simp, fun i' j' _ => rfl⟩
  | cons i outs ih =>
    intro R hnd hmem hcol hkk hkrow hrows
    have hinr : i ∈ remaining := hmem i (List.mem_cons_self i outs)
    have hik : i ≠ k := hknr i hinr
    have hinotin : i ∉ outs := (List.nodup_cons.mp hnd).1
    have hndtl : outs.Nodup := (List.nodup_cons.mp hnd).2
    obtain ⟨R1, hinner, hivals, hipres⟩ := elim_inner_spec k i V hik
      remaining R hndr hknr
      (hcol i (List.mem_cons_self i outs)) hkk hkrow
      (hrows i (List.mem_cons_self i outs))
    have hki : k ≠ i := fun hc => hik hc.symm
    have hcol1 : ∀ i' ∈ outs, mget R1 i' k = some (V i' k) := by
      intro i' hi'
      rw [hipres i' k (Or.inl (fun hc => hinotin (hc ▸ hi')))]
      exact hcol i' (List.mem_cons_of_mem i hi')
    have hkk1 : mget R1 k k = some (V k k) := by
      rw [hipres k k (Or.inl hki)]
      exact hkk
    have hkrow1 : ∀ j ∈ remaining, mget R1 k j = some (V k j) := by
      intro j hj
      rw [hipres k j (Or.inl hki)]
      exact hkrow j hj
    have hrows1 : ∀ i' ∈ outs, ∀ j ∈ remaining, mget R1 i' j = some (V i' j) := by
      intro i' hi' j hj
      rw [hipres i' j (Or.inl (fun hc => hinotin (hc ▸ hi')))]
      exact hrows i' (List.mem_cons_of_mem i hi') j hj
    obtain ⟨R2, hrec, hvals, hpres⟩ := ih R1 hndtl
      (fun i' hi' => hmem i' (List.mem_cons_of_mem i hi'))
      hcol1 hkk1 hkrow1 hrows1
    refine ⟨R2, ?_, ?_, ?_⟩
    · unfold elim_outer
      simp only [hinner]
      exact hrec
    · intro i'' hi'' j hj
      rcases List.mem_cons.mp hi'' with hia | hib
      · subst hia
        rw [hpres i'' j hinotin]
        exact hivals j hj
      · exact hvals i'' hib j hj
    · intro i' j' hcond
      have hnotouts : i' ∉ outs :=
        fun hc => hcond (List.mem_cons_of_mem i hc)
      have hnoti : i' ≠ i :=
        fun hc => hcond (hc ▸ List.mem_cons_self i outs)
      rw [hpres i' j' hnotouts]
      exact hipres i' j' (Or.inl hnoti)

/-- Claim C3: eliminating a state `k` updates every remaining ordered pair
`(i, j)` to `union(R[i][j], concat(concat(R[i][k], kleeneStar(R[k][k])),
R[k][j]))` where all right-hand-side values are the ones the matrix held
before the pass began — the pass writes only entries outside row `k` and
column `k`, so no pair's update disturbs a value another pair's update
reads. -/
theorem C3_elimination_snapshot (R0 : RMatrix) (k : State)
    (remaining : List State) (V : State → State → Regex)
    (hknr : k ∉ remaining) (hnd : remaining.Nodup)
    (hV : ∀ i j, (i ∈ remaining ∨ i = k) → (j ∈ remaining ∨ j = k) →
        mget R0 i j = some (V i j)) :
    ∃ R', eliminate_pass R0 k remaining = some R' ∧
      ∀ i ∈ remaining, ∀ j ∈ remaining,
        mget R' i j = some (make_union (V i j)
          (make_concat (make_concat (V i k) (make_kleene_star (V k k)))
            (V k j))) := by
  have hne : ∀ j ∈ remaining, j ≠ k := fun j hj hc => hknr (hc ▸ hj)
  obtain ⟨R', h1, h2, _⟩ := elim_outer_spec k V remaining hnd hne remaining
    R0 hnd (fun i h => h)
    (fun i hi => hV i k (Or.inl hi) (Or.inr rfl))
    (hV k k (Or.inr rfl) (Or.inr rfl))
    (fun j hj => hV k j (Or.inr rfl) (Or.inl hj))
    (fun i hi j hj => hV i j (Or.inl hi) (Or.inl hj))
  exact ⟨R', h1, h2⟩

/-- Witness for claim C3: eliminating `q1` from the all-`EmptySet` matrix
over `{q0, q1, q2}`. -/
theorem C3_elimination_snapshot_witness :
    ∃ R', eliminate_pass (initR ["q0", "q1", "q2"]) "q1" ["q0", "q2"]
        = some R' ∧
      ∀ i ∈ ["q0", "q2"], ∀ j ∈ ["q0", "q2"],
        mget R' i j = some (make_union Regex.emptySet
          (make_concat (make_concat Regex.emptySet
            (make_kleene_star Regex.emptySet)) Regex.emptySet)) :=
  C3_elimination_snapshot (initR ["q0", "q1", "q2"]) "q1" ["q0", "q2"]
    (fun _ _ => Regex.emptySet) (by decide) (by decide)
    (by
      intro i j hi hj
      have hi' : i = "q0" ∨ i = "q2" ∨ i = "q1" := by
        rcases hi with h | h
        · simp at h; tauto
        · tauto
      have hj' : j = "q0" ∨ j = "q2" ∨ j = "q1" := by
        rcases hj with h | h
        · simp at h; tauto
        · tauto
      rcases hi' with h | h | h <;> subst h <;>
        rcases hj' with h | h | h <;> subst h <;> decide)

/-! ## Regular grammars (`regular_grammar.py`) -/

inductive GrammarType where
  | right_linear
  | left_linear
deriving DecidableEq, Repr

/-- `RegularProduction`: `A → ε` is `(none, none)`, `A → a` is
`(some a, none)`, and the linear form is `(some a, some B)`;
`__post_init__` rejects `(none, some B)` for both orientations, so that
shape never reaches the conversion. -/
structure RegularProduction where
  left_side : String
  terminal : Option String
  right_side : Option String
  grammar_type : GrammarType
deriving DecidableEq, Repr

/-- `RegularGrammar` (the field `variables` of the source is spelled
`variables'` because `variables` is a reserved token in Lean). -/
structure RegularGrammar where
  variables' : List String
  terminals : List String
  productions : List RegularProduction
  start_variable : String
  grammar_type : GrammarType

/-- `transitions[fr].setdefault(symbol, set()).add(to_state)`.  For a
grammar that passes validation the row `fr` always exists (its
initialization covers every declared variable); an absent row — a Python
`KeyError` — is embedded by appending the row. -/
def addEdge (tr : List (State × List (Sym × List State))) (fr : State)
    (symbol : Sym) (to_state : State) :
    List (State × List (Sym × List State)) :=
  match dget tr fr with
  | none => tr ++ [(fr, [(symbol, [to_state])])]
  | some row =>
    match dget row symbol with
    | none => dset tr fr (row ++ [(symbol, [to_state])])
    | some ts => dset tr fr (dset row symbol (pyInsert ts to_state))

/-- The mutable locals of `to_finite_automaton`'s production loop.  (The
`states` local of the source is never consulted afterwards and is
omitted.) -/
structure ConvState where
  transitions : List (State × List (Sym × List State))
  final_states : List State
  extra_final : Option State
deriving Repr

/-- One iteration of the production loop of `to_finite_automaton`:
`A → ε` makes `A` final; right-linear `A → aB` adds the edge
`A --a--> B`; right-linear `A → a` routes through the shared synthetic
final state `"[Final]"`, created lazily on first use; left-linear
productions mirror this with the edge keyed off the right-hand variable
and the synthetic state named `"[FINAL]"`.  (In the unreachable invalid
shape `(none, some B)` the edge label defaults to `""`.) -/
def convert_production (st : ConvState) (prod : RegularProduction) :
    ConvState :=
  if prod.terminal = none ∧ prod.right_side = none then
    { st with final_states := pyInsert st.final_states prod.left_side }
  else if prod.grammar_type = .right_linear then
    match prod.right_side with
    | some b =>
      { st with transitions :=
          addEdge st.transitions prod.left_side (prod.terminal.getD "") b }
    | none =>
      match st.extra_final with
      | some f =>
        { st with
            transitions :=
              addEdge st.transitions prod.left_side (prod.terminal.getD "") f
            final_states := pyInsert st.final_states f }
      | none =>
        { transitions :=
            addEdge st.transitions prod.left_side (prod.terminal.getD "")
              "[Final]"
          final_states := pyInsert st.final_states "[Final]"
          extra_final := some "[Final]" }
  else
    match prod.right_side with
    | some b =>
      { st with transitions :=
          addEdge st.transitions b (prod.terminal.getD "") prod.left_side }
    | none =>
      match st.extra_final with
      | some f =>
        { st with
            transitions :=
              addEdge st.transitions prod.left_side (prod.terminal.getD "") f
            final_states := pyInsert st.final_states f }
      | none =>
        { transitions :=
            addEdge st.transitions prod.left_side (prod.terminal.getD "")
              "[FINAL]"
          final_states := pyInsert st.final_states "[FINAL]"
          extra_final := some "[FINAL]" }

/-- `RegularGrammar.to_finite_automaton`: every variable starts with an
empty edge map, the productions are folded in order, rows left empty are
removed, and the result is handed to `make_nfa` (whose normalization is a
no-op here because every target is already a set). -/
def RegularGrammar.to_finite_automaton (G : RegularGrammar) : NFA :=
  let st := G.productions.foldl convert_production
    { transitions := G.variables'.map (fun v => (v, []))
    , final_states := []
    , extra_final := none }
  { alphabet := G.terminals
  , delta := st.transitions.filter (fun p => ! p.2.isEmpty)
  , start := G.start_variable
  , final_states := st.final_states }

/-- The right-linear grammar `S → 0S | 1` generating `0*1`. -/
def zeroOneGrammar : RegularGrammar :=
  { variables' := ["S"]
  , terminals := ["0", "1"]
  , productions :=
      [ { left_side := "S", terminal := some "0", right_side := some "S"
        , grammar_type := .right_linear }
      , { left_side := "S", terminal := some "1", right_side := none
        , grammar_type := .right_linear } ]
  , start_variable := "S"
  , grammar_type := .right_linear }

def zeroOneNFA : NFA := zeroOneGrammar.to_finite_automaton

/-- The converted `0*1` automaton, spelled out. -/
theorem zeroOneNFA_eq :
    zeroOneNFA =
      { alphabet := ["0", "1"]
      , delta := [("S", [("0", ["S"]), ("1", ["[Final]"])])]
      , start := "S"
      , final_states := ["[Final]"] } := rfl

/-- The grammar whose only production is `S → ε`. -/
def epsilonOnlyGrammar : RegularGrammar :=
  { variables' := ["S"]
  , terminals := ["a"]
  , productions :=
      [ { left_side := "S", terminal := none, right_side := none
        , grammar_type := .right_linear } ]
  , start_variable := "S"
  , grammar_type := .right_linear }

def epsilonOnlyNFA : NFA := epsilonOnlyGrammar.to_finite_automaton

/-- The converted epsilon-only automaton: its single empty row is removed,
leaving an empty transition map. -/
theorem epsilonOnlyNFA_eq :
    epsilonOnlyNFA =
      { alphabet := ["a"], delta := [], start := "S"
      , final_states := ["S"] } := rfl

/-- Claim C9: the right-linear conversion maps `A → aB` to the edge
`A --a--> B`, routes `A → a` through one shared lazily-created synthetic
final state, and makes `A` final for `A → ε`; converting `S → 0S | 1`
yields an automaton accepting `1` and `001` and rejecting `10` and the
empty string, and converting the epsilon-only grammar yields an automaton
accepting exactly the empty string over its alphabet. -/
theorem C9_grammar_to_automaton :
    (∀ (st : ConvState) (A a B : String),
        convert_production st ⟨A, some a, some B, .right_linear⟩
          = { st with transitions := addEdge st.transitions A a B }) ∧
    (∀ (st : ConvState) (A a f : String), st.extra_final = some f →
        convert_production st ⟨A, some a, none, .right_linear⟩
          = { st with
                transitions := addEdge st.transitions A a f
                final_states := pyInsert st.final_states f }) ∧
    (∀ (st : ConvState) (A a : String), st.extra_final = none →
        convert_production st ⟨A, some a, none, .right_linear⟩
          = { transitions := addEdge st.transitions A a "[Final]"
            , final_states := pyInsert st.final_states "[Final]"
            , extra_final := some "[Final]" }) ∧
    (∀ (st : ConvState) (A : String) (gt : GrammarType),
        convert_production st ⟨A, none, none, gt⟩
          = { st with final_states := pyInsert st.final_states A }) ∧
    zeroOneNFA.accepts ["1"] = .ok true ∧
    zeroOneNFA.accepts ["0", "0", "1"] = .ok true ∧
    zeroOneNFA.accepts ["1", "0"] = .ok false ∧
    zeroOneNFA.accepts [] = .ok false ∧
    epsilonOnlyNFA.accepts [] = .ok true ∧
    (∀ s : List Sym, s ≠ [] → (∀ c ∈ s, c ∈ epsilonOnlyNFA.alphabet) →
        epsilonOnlyNFA.accepts s = .ok false) := by
  refine ⟨?_, ?_, ?_, ?_, ?_, ?_, ?_, ?_, ?_, ?_⟩
  · intro st A a B
    simp [convert_production]
  · intro st A a f hf
    simp [convert_production, hf]
  · intro st A a hf
    simp [convert_production, hf]
  · intro st A gt
    simp [convert_production]
  · simp [NFA.accepts, NFA.acceptsFrom, NFA.step_nfa, union_steps, NFA.step,
      epsilon_closure, closure_loop, epsTargets, dget, List.find?,
      setIntersects, zeroOneNFA_eq]
  · simp [NFA.accepts, NFA.acceptsFrom, NFA.step_nfa, union_steps, NFA.step,
      epsilon_closure, closure_loop, epsTargets, dget, List.find?,
      setIntersects, zeroOneNFA_eq]
  · simp [NFA.accepts, NFA.acceptsFrom, NFA.step_nfa, union_steps, NFA.step,
      epsilon_closure, closure_loop, epsTargets, dget, List.find?,
      setIntersects, zeroOneNFA_eq]
  · simp [NFA.accepts, NFA.acceptsFrom, NFA.step_nfa, union_steps, NFA.step,
      epsilon_closure, closure_loop, epsTargets, dget, List.find?,
      setIntersects, zeroOneNFA_eq]
  · simp [NFA.accepts, NFA.acceptsFrom, NFA.step_nfa, union_steps, NFA.step,
      epsilon_closure, closure_loop, epsTargets, dget, List.find?,
      setIntersects, epsilonOnlyNFA_eq]
  · intro s hne hmem
    cases s with
    | nil => exact absurd rfl hne
    | cons ch rest =>
      have hch : ch = "a" := by
        have h := hmem ch (List.mem_cons_self ch rest)
        rw [epsilonOnlyNFA_eq] at h
        simpa using h
      subst hch
      simp [NFA.accepts, NFA.acceptsFrom, NFA.step_nfa, union_steps,
        NFA.step, epsilon_closure, closure_loop, epsTargets, dget,
        List.find?, setIntersects, epsilonOnlyNFA_eq]

/-- Witness for claim C9: the epsilon-only automaton rejects `"a"`. -/
theorem C9_grammar_to_automaton_witness :
    epsilonOnlyNFA.accepts ["a"] = .ok false :=
  C9_grammar_to_automaton.2.2.2.2.2.2.2.2.2 ["a"] (by decide) (by decide)

/-! ## Claim C10: `get_states` is the key set of the transition map -/

/-- `MooreMachine` from `automata/moore_machine.py` (deterministic shape
plus a per-state output map). -/
structure MooreMachine where
  alphabet : List Sym
  delta : List (State × List (Sym × State))
  start : State
  final_states : List State
  output : List (State × String)

/-- `FSA.get_states`, inherited by the Moore machine. -/
def MooreMachine.get_states (M : MooreMachine) : List State :=
  M.delta.map (fun p => p.1)

/-- `MealyMachine` from `automata/mealy_machine.py` (deterministic shape
plus a per-(state, symbol) output map; no final states). -/
structure MealyMachine where
  alphabet : List Sym
  delta : List (State × List (Sym × State))
  start : State
  output : List (State × List (Sym × String))

/-- `FSA.get_states`, inherited by the Mealy machine. -/
def MealyMachine.get_states (M : MealyMachine) : List State :=
  M.delta.map (fun p => p.1)

theorem mem_keys_iff_dget_isSome {α : Type} (d : List (State × α))
    (s : State) :
    s ∈ d.map (fun p => p.1) ↔ (dget d s).isSome = true := by
  unfold dget
  rw [List.mem_map, Option.isSome_map', List.find?_isSome]
  constructor
  · rintro ⟨p, hp, rfl⟩
    exact ⟨p, hp, by simp⟩
  · rintro ⟨p, hp, hbeq⟩
    exact ⟨p, hp, by simpa using hbeq⟩

theorem dget_map_pair {α : Type} (f : State → α) (states : List State)
    (k : State) :
    dget (states.map (fun s => (s, f s))) k =
      if k ∈ states then some (f k) else none := by
  induction states with
  | nil => simp [dget]
  | cons s rest ih =>
    rw [List.map_cons, dget_cons]
    by_cases hs : s = k
    · subst hs
      rw [if_pos rfl, if_pos (List.mem_cons_self s rest)]
    · rw [if_neg hs, ih]
      by_cases hk : k ∈ rest
      · rw [if_pos hk, if_pos (List.mem_cons_of_mem s hk)]
      · rw [if_neg hk, if_neg ?_]
        rw [List.mem_cons]
        rintro (hc | hc)
        · exact hs hc.symm
        · exact hk hc

/-- The matrix produced by `to_regex`'s initialization has entries exactly
over the key set of `delta`. -/
theorem mget_initR (states : List State) (i j : State) :
    mget (initR states) i j =
      if i ∈ states ∧ j ∈ states then some Regex.emptySet else none := by
  unfold mget initR
  rw [dget_map_pair]
  by_cases hi : i ∈ states
  · rw [if_pos hi]
    show dget (states.map (fun s2 => (s2, Regex.emptySet))) j = _
    rw [dget_map_pair]
    by_cases hj : j ∈ states
    · rw [if_pos hj, if_pos ⟨hi, hj⟩]
    · rw [if_neg hj, if_neg (fun hc => hj hc.2)]
  · rw [if_neg hi]
    show none = _
    rw [if_neg (fun hc => hi hc.1)]

/-- Claim C10: for every automaton kind, `get_states()` is exactly the set
of source keys of the transition map — a state occurring only as a target
(such as the synthetic `"[Final]"` of the grammar conversion) is not in
it — and `to_regex` initializes its matrix only over this key set. -/
theorem C10_get_states_delta_keys :
    (∀ (A : NFA) (s : State),
        s ∈ A.get_states ↔ (dget A.delta s).isSome = true) ∧
    (∀ (M : DFA) (s : State),
        s ∈ M.get_states ↔ (dget M.delta s).isSome = true) ∧
    (∀ (M : MooreMachine) (s : State),
        s ∈ M.get_states ↔ (dget M.delta s).isSome = true) ∧
    (∀ (M : MealyMachine) (s : State),
        s ∈ M.get_states ↔ (dget M.delta s).isSome = true) ∧
    (∀ (A : NFA) (i j : State),
        mget (initR A.get_states) i j =
          if i ∈ A.get_states ∧ j ∈ A.get_states then some Regex.emptySet
          else none) ∧
    "[Final]" ∉ zeroOneNFA.get_states ∧
    "[Final]" ∈ targetUniverse zeroOneNFA ∧
    "[Final]" ∈ zeroOneNFA.final_states :=
  ⟨fun A s => mem_keys_iff_dget_isSome A.delta s,
   fun M s => mem_keys_iff_dget_isSome M.delta s,
   fun M s => mem_keys_iff_dget_isSome M.delta s,
   fun M s => mem_keys_iff_dget_isSome M.delta s,
   fun A i j => mget_initR A.get_states i j,
   by decide, by decide, by decide⟩

end RegularLib
